import Mathlib

/-!
Verification of the speakersep pipeline (speaker_diarization.py,
transcript_manager.py, speaker_assignment.py, speaker_organizer.py).

Strings are modelled as `List Char`.  Time values that the Python code
holds as floats and renders with `"{:.1f}"` are modelled as a number of
tenths of a second (`Nat`), which is exactly the information the
one-decimal rendering keeps; rational numbers (`ℚ`) are used where the
code computes with the numeric values themselves.
-/

namespace SpeakerSep

/-- Characters `'0'`-`'9'` rendered from a digit value (used by decimal
rendering; any argument ≥ 9 renders as `'9'`, callers only pass `n % 10`). -/
def digitChar (n : Nat) : Char :=
  match n with
  | 0 => '0' | 1 => '1' | 2 => '2' | 3 => '3' | 4 => '4'
  | 5 => '5' | 6 => '6' | 7 => '7' | 8 => '8' | _ => '9'

/-- Numeric value of a digit character. -/
def digitVal (c : Char) : Nat := c.toNat - 48

/-- Digit test, as Python's `\d` (ASCII digits in the filenames at hand). -/
def isDigitC (c : Char) : Bool := 48 ≤ c.toNat && c.toNat ≤ 57

/-- Decimal rendering of a natural number, most significant digit first;
`fuel` bounds the recursion (any `fuel > n` is enough). -/
def toDecA : Nat → Nat → List Char
  | 0, _ => []
  | fuel + 1, n => if n < 10 then [digitChar n] else toDecA fuel (n / 10) ++ [digitChar (n % 10)]

/-- Decimal rendering of a natural number (Python `str(n)` / `"{}".format(n)`). -/
def toDec (n : Nat) : List Char := toDecA (n + 1) n

/-- Value of a most-significant-first digit string (how Python's `float`/`int`
read back the digit groups captured by the regex). -/
def ofDigits0 (l : List Char) : Nat := l.foldl (fun a c => 10 * a + digitVal c) 0

/-- Python `"{:03d}".format(n)`: decimal rendering left-padded with zeros
to width 3. -/
def pad3 (n : Nat) : List Char :=
  List.replicate (3 - (toDec n).length) '0' ++ toDec n

/-- Rendering of a time of `t` tenths of a second as Python's
`"{:.1f}".format(t / 10)` renders the corresponding float. -/
def showTenths (t : Nat) : List Char := toDec (t / 10) ++ '.' :: [digitChar (t % 10)]

/-- The literal `"SPEAKER_"` that opens every pyannote speaker label and that
the transcript regex `(SPEAKER_\d+)` demands. -/
def speakerLit : List Char := ['S', 'P', 'E', 'A', 'K', 'E', 'R', '_']

/-!
### Segment address formatting

`speaker_diarization.py`, `_extract_speaker_segments`:
`segment_filename = f"{base_name}_{speaker}_{i:03d}_{turn.start:.1f}s-{turn.end:.1f}s.wav"`.
Start and end times are given in tenths of a second (the information the
one-decimal float format keeps).
-/
def formatAddress (sessionId speaker : List Char) (idx s10 e10 : Nat) : List Char :=
  sessionId ++ '_' :: speaker ++ '_' :: pad3 idx ++ '_' ::
    showTenths s10 ++ 's' :: '-' :: showTenths e10 ++ 's' :: '.' :: 'w' :: 'a' :: 'v' :: []

/-!
### Segment address parsing

`transcript_manager.py`, `transcribe_session`:
`filename_pattern = r"(.+)_(SPEAKER_\d+)_(\d+)_(\d+\.\d+)s-(\d+\.\d+)s\.wav"`
applied with `re.match` (anchored at the start, greedy `(.+)`, trailing
characters after `\.wav` permitted).  The parsed start/end groups are read
back through `float(...)`, modelled as a rational value.
-/

/-- Maximal run of digit characters and the remainder (how the regex engine
resolves each `\d+`, whose backtracked shorter matches can never succeed
here because every `\d+` is followed by a non-digit literal). -/
def takeDigits : List Char → List Char × List Char
  | [] => ([], [])
  | c :: l =>
    if isDigitC c then
      let p := takeDigits l
      (c :: p.1, p.2)
    else ([], c :: l)

/-- Numeric value of the two digit groups of `(\d+\.\d+)` as `float` reads
them back. -/
def qVal (intD fracD : List Char) : ℚ :=
  (ofDigits0 intD : ℚ) + (ofDigits0 fracD : ℚ) / 10 ^ fracD.length

/-- Parsed groups of a segment filename: speaker label, sequence index,
start time, end time (the `base_name` group is handled by the caller). -/
structure TailGroups where
  speaker : List Char
  idx : Nat
  start : ℚ
  stop : ℚ
deriving DecidableEq, Repr

/-- Consume an exact literal from the front of the input, returning the
rest, or `none` when the input does not start with the literal. -/
def expectLit : List Char → List Char → Option (List Char)
  | [], l => some l
  | _ :: _, [] => none
  | c :: cs, x :: xs => if x = c then expectLit cs xs else none

/-- The part of the filename regex after the `(.+)_` group:
`(SPEAKER_\d+)_(\d+)_(\d+\.\d+)s-(\d+\.\d+)s\.wav`, with anything allowed
after the final `.wav` (the pattern is not end-anchored). -/
def tailParse (l : List Char) : Option TailGroups :=
  match expectLit speakerLit l with
  | none => none
  | some r0 =>
    let p1 := takeDigits r0
    if p1.1 = [] then none else
    match p1.2 with
    | '_' :: r2 =>
      let p2 := takeDigits r2
      if p2.1 = [] then none else
      match p2.2 with
      | '_' :: r4 =>
        let p3 := takeDigits r4
        if p3.1 = [] then none else
        match p3.2 with
        | '.' :: r6 =>
          let p4 := takeDigits r6
          if p4.1 = [] then none else
          match p4.2 with
          | 's' :: '-' :: r8 =>
            let p5 := takeDigits r8
            if p5.1 = [] then none else
            match p5.2 with
            | '.' :: r10 =>
              let p6 := takeDigits r10
              if p6.1 = [] then none else
              match p6.2 with
              | 's' :: '.' :: 'w' :: 'a' :: 'v' :: _ =>
                some ⟨speakerLit ++ p1.1, ofDigits0 p2.1, qVal p3.1 p4.1, qVal p5.1 p6.1⟩
              | _ => none
            | _ => none
          | _ => none
        | _ => none
      | _ => none
    | _ => none

/-- Search for the separator `_` between the greedy `(.+)` group and the
tail pattern.  The deeper (longer-base) split is preferred, exactly as the
greedy `(.+)` tries the longest base first; a `'\n'` blocks `.` and hence
every split further right. -/
def goP : List Char → Option (List Char × TailGroups)
  | [] => none
  | c :: rest =>
    if c = '_' then
      match goP rest with
      | some p => some ('_' :: p.1, p.2)
      | none =>
        match tailParse rest with
        | some g => some ([], g)
        | none => none
    else if c = '\n' then none
    else
      match goP rest with
      | some p => some (c :: p.1, p.2)
      | none => none

/-- Full parse of a segment filename by the transcript regex: returns the
`base_name` group and the tail groups, or `none` when `re.match` fails. -/
def parseFilename : List Char → Option (List Char × TailGroups)
  | [] => none
  | c :: rest =>
    if c = '\n' then none
    else
      match goP rest with
      | some p => some (c :: p.1, p.2)
      | none => none

/-- The portion of a well-formed segment filename after the session id's
separator: speaker literal, label digits, sequence index, times, codec
suffix.  `formatAddress sid (speakerLit ++ d) i s e` equals
`sid ++ '_' :: tailForm d i s e`. -/
def tailForm (digits : List Char) (idx s10 e10 : Nat) : List Char :=
  'S' :: 'P' :: 'E' :: 'A' :: 'K' :: 'E' :: 'R' :: '_' ::
    (digits ++ '_' :: (pad3 idx ++ '_' :: (showTenths s10 ++ 's' :: '-' ::
      (showTenths e10 ++ 's' :: '.' :: 'w' :: 'a' :: 'v' :: []))))

/-!
### Segment filter (speaker_diarization.py, `_save_diarization_results`)
-/

/-- One raw diarization interval `(turn.start, turn.end, speaker)`. -/
structure RawInterval where
  start : ℚ
  stop : ℚ
  speaker : List Char
deriving DecidableEq, Repr

/-- `turn.duration` (pyannote: `end - start`). -/
def dur (i : RawInterval) : ℚ := i.stop - i.start

/-- `meaningful_segments`: the intervals kept by `if turn.duration >= 1.0`. -/
def meaningfulSegments (l : List RawInterval) : List RawInterval :=
  l.filter (fun i => decide (1 ≤ dur i))

/-- One row of the persisted timeline (CSV row / JSON `timeline` element):
start, end, duration, speaker. -/
def timelineEntry (i : RawInterval) : ℚ × ℚ × ℚ × List Char :=
  (i.start, i.stop, dur i, i.speaker)

/-- The persisted timeline: one entry per kept interval. -/
def timelineData (l : List RawInterval) : List (ℚ × ℚ × ℚ × List Char) :=
  (meaningfulSegments l).map timelineEntry

/-- Tenths-of-a-second view of a nonnegative rational time, as Python's
`"{:.1f}"` rounds the float (round-to-nearest; the half-even tie detail of
binary floats is immaterial to the claims). -/
def tenthsQ (q : ℚ) : Nat := (round (10 * q)).toNat

/-- `_extract_speaker_segments`: one audio file per kept interval, named by
`formatAddress` with the zero-based enumeration index. -/
def extractSpeakerSegments (sessionId : List Char) (meaningful : List RawInterval) :
    List (List Char) :=
  meaningful.enum.map fun p =>
    formatAddress sessionId p.2.speaker p.1 (tenthsQ p.2.start) (tenthsQ p.2.stop)

/-!
### Generic list helpers shared by the remaining components
-/

/-- First-match association-list lookup (Python `dict[k]` /
`dict.get(k)` over the insertion-ordered pairs). -/
def lookupL (k : List Char) : List (List Char × α) → Option α
  | [] => none
  | p :: t => if p.1 = k then some p.2 else lookupL k t

/-- Stable insertion: `x` goes in front of the first element `y` for which
`lt y x` fails. -/
def insertBy (lt : α → α → Bool) (x : α) : List α → List α
  | [] => [x]
  | y :: ys => if lt y x then y :: insertBy lt x ys else x :: y :: ys

/-- Stable insertion sort; with a total preorder it produces the same list
as Python's stable `list.sort`. -/
def sortBy (lt : α → α → Bool) : List α → List α
  | [] => []
  | x :: xs => insertBy lt x (sortBy lt xs)

/-- Code-point lexicographic `<` on strings (Python string comparison). -/
def strLt : List Char → List Char → Bool
  | [], [] => false
  | [], _ :: _ => true
  | _ :: _, [] => false
  | a :: as, b :: bs =>
    if a.toNat < b.toNat then true
    else if b.toNat < a.toNat then false
    else strLt as bs

/-- Concatenation of the lists produced for each element, in order. -/
def flatMapL (f : α → List β) : List α → List β
  | [] => []
  | x :: xs => f x ++ flatMapL f xs

/-!
### Transcription (transcript_manager.py, `transcribe_session`,
`save_raw_transcripts`, `process_session_transcription_only`)
-/

/-- Whitespace as Python's `str.strip` removes it (ASCII range). -/
def isSpC (c : Char) : Bool :=
  c = ' ' || c = '\t' || c = '\n' || c = '\r' || c = '\x0B' || c = '\x0C'

/-- Python `str.strip()`. -/
def pyStrip (l : List Char) : List Char :=
  ((l.dropWhile isSpC).reverse.dropWhile isSpC).reverse

/-- One value of the `transcripts` mapping: `speaker_id`, `start_time`,
`end_time`, `duration`, `text` (the constant `confidence`/`language`/
`model` fields carry no information and are omitted). -/
structure TEntryRaw where
  speakerId : List Char
  startT : ℚ
  stopT : ℚ
  duration : ℚ
  text : List Char
deriving DecidableEq, Repr

/-- The per-segment loop of `transcribe_session`.  `oracle` is the external
Whisper call: `none` models the call raising an exception (caught, logged,
segment skipped); `some txt` is the returned `result["text"]`.  A filename
the regex cannot parse is skipped; a transcription empty after stripping is
dropped. -/
def transcribeSegments (files : List (List Char))
    (oracle : List Char → Option (List Char)) : List (List Char × TEntryRaw) :=
  match files with
  | [] => []
  | f :: fs =>
    match parseFilename f with
    | none => transcribeSegments fs oracle
    | some p =>
      match oracle f with
      | none => transcribeSegments fs oracle
      | some txt =>
        let t := pyStrip txt
        if t = [] then transcribeSegments fs oracle
        else (f, ⟨p.2.speaker, p.2.start, p.2.stop, p.2.stop - p.2.start, t⟩)
          :: transcribeSegments fs oracle

/-- The contribution of a single segment file to the `transcripts`
mapping: empty when the filename fails to parse, the Whisper call raises,
or the stripped text is empty; a single keyed entry otherwise.
`transcribeSegments` is exactly the concatenation of these. -/
def keptEntry (oracle : List Char → Option (List Char)) (f : List Char) :
    List (List Char × TEntryRaw) :=
  match parseFilename f with
  | none => []
  | some p =>
    match oracle f with
    | none => []
    | some txt =>
      let t := pyStrip txt
      if t = [] then []
      else [(f, ⟨p.2.speaker, p.2.start, p.2.stop, p.2.stop - p.2.start, t⟩)]

def awaitingStatus : List Char := "awaiting_speaker_assignment".data

def completedStatus : List Char := "completed".data

/-- The raw-transcript record written by `save_raw_transcripts`
(`generated_at` is the wall-clock instant `now`; `completed_at` is absent
until the session is marked completed). -/
structure RawRecord where
  sessionName : List Char
  generatedAt : Nat
  totalSegments : Nat
  speakersDetected : List (List Char)
  status : List Char
  transcripts : List (List Char × TEntryRaw)
  completedAt : Option Nat
deriving DecidableEq, Repr

/-- `save_raw_transcripts`: `speakers_detected = list(set(speaker_id ...))`
(modelled by `dedup`; only membership in the set is ever used), status
`awaiting_speaker_assignment`. -/
def mkRawRecord (name : List Char) (ts : List (List Char × TEntryRaw)) (now : Nat) :
    RawRecord :=
  ⟨name, now, ts.length, (ts.map (·.2.speakerId)).dedup, awaitingStatus, ts, none⟩

/-- `process_session_transcription_only`: transcribe, fail the session
(`None`) when zero transcripts resulted, otherwise persist the raw record. -/
def processSessionTranscriptionOnly (name : List Char) (files : List (List Char))
    (oracle : List Char → Option (List Char)) (now : Nat) : Option RawRecord :=
  let ts := transcribeSegments files oracle
  if ts = [] then none else some (mkRawRecord name ts now)

/-- The on-disk state of one session that the transcription stage touches:
the segment audio files and the raw-transcript record. -/
structure SessionFS where
  segmentFiles : List (List Char)
  rawRecord : Option RawRecord
deriving DecidableEq, Repr

/-- Effect of the transcription stage on a session directory: it writes
only the raw-transcript record in `metadata/`; the `segments/` audio files
are read, never written or deleted. -/
def runTranscriptionStage (name : List Char) (s : SessionFS)
    (oracle : List Char → Option (List Char)) (now : Nat) : SessionFS :=
  match processSessionTranscriptionOnly name s.segmentFiles oracle now with
  | none => s
  | some r => { s with rawRecord := some r }

/-!
### Speaker assignment (speaker_assignment.py)
-/

/-- Python `str.lower()` (ASCII case of the inputs at hand). -/
def toLowerL (l : List Char) : List Char := l.map Char.toLower

/-- `real_name.replace(' ', '').replace('-', '').replace('_', '')`. -/
def stripSep (l : List Char) : List Char :=
  l.filter (fun c => !(c = ' ' || c = '-' || c = '_'))

/-- Python `str.isalnum()`: nonempty and every character alphanumeric. -/
def pyIsAlnum (l : List Char) : Bool := !l.isEmpty && l.all Char.isAlphanum

/-- The name-validation step of `interactive_speaker_assignment` for one
label: returns the durable name and whether the invalid-name warning was
printed.  `raw` is the operator's stripped input. -/
def processName (sid raw : List Char) : List Char × Bool :=
  if toLowerL raw = "skip".data ∨ toLowerL raw = [] then (sid, false)
  else if pyIsAlnum (stripSep raw) then (raw, false)
  else (sid, true)

/-- `find_audio_samples_for_speaker`: transcript entries of this speaker
whose segment file exists, sorted by descending duration (stable), first
three. -/
def findAudioSamples (ts : List (List Char × TEntryRaw)) (fs : List (List Char))
    (sid : List Char) : List (List Char × TEntryRaw) :=
  (sortBy (fun u v => decide (v.2.duration < u.2.duration))
    (ts.filter (fun p => decide (p.2.speakerId = sid ∧ p.1 ∈ fs)))).take 3

/-- `speakers = sorted(set(speaker_id ...))`: the distinct ephemeral labels
of the session in lexicographic order. -/
def speakersOf (ts : List (List Char × TEntryRaw)) : List (List Char) :=
  sortBy strLt (ts.map (·.2.speakerId)).dedup

/-- The whole `interactive_speaker_assignment` loop.  `fs` is the
`segments/` listing; `inp sid` is the operator's eventual (stripped) name
input for label `sid`.  A label with no audio sample on disk is passed over
(`continue`) and receives no mapping entry. -/
def buildMappings (ts : List (List Char × TEntryRaw)) (fs : List (List Char))
    (inp : List Char → List Char) : List (List Char × List Char) :=
  (speakersOf ts).foldl
    (fun m sid =>
      if findAudioSamples ts fs sid = [] then m
      else m ++ [(sid, (processName sid (inp sid)).1)])
    []

/-- Two-digit zero-padded rendering (Python `"{:02d}"`). -/
def pad2 (n : Nat) : List Char :=
  List.replicate (2 - (toDec n).length) '0' ++ toDec n

/-- `f"{int(t//60):02d}:{int(t%60):02d}"` for a nonnegative time. -/
def fmtMMSS (t : ℚ) : List Char :=
  pad2 (Int.toNat ⌊t / 60⌋) ++ ':' :: pad2 (Int.toNat (⌊t⌋ - 60 * ⌊t / 60⌋))

/-- One line of the finalized transcript. -/
structure FinalEntry where
  timestamp : ℚ
  timestampFmt : List Char
  duration : ℚ
  speaker : List Char
  text : List Char
deriving DecidableEq, Repr

/-- The finalized-transcript record. -/
structure FinalTranscript where
  sessionName : List Char
  totalSegments : Nat
  speakers : List (List Char)
  speakerMappings : List (List Char × List Char)
  transcript : List FinalEntry
deriving DecidableEq, Repr

/-- `generate_final_transcript`: `{}` (here `none`) on an empty transcript
collection, otherwise entries sorted by start time with every speaker field
re-keyed through `speaker_mappings.get(speaker_id, speaker_id)`. -/
def generateFinal (ts : List (List Char × TEntryRaw))
    (mappings : List (List Char × List Char)) (name : List Char) :
    Option FinalTranscript :=
  if ts = [] then none
  else
    some
      { sessionName := name
        totalSegments := ts.length
        speakers := mappings.map (·.2)
        speakerMappings := mappings
        transcript :=
          (sortBy (fun u v => decide (u.2.startT < v.2.startT)) ts).map fun p =>
            ⟨p.2.startT, fmtMMSS p.2.startT, p.2.duration,
              (lookupL p.2.speakerId mappings).getD p.2.speakerId, p.2.text⟩ }

/-- `_mark_session_completed`: set status `completed` and stamp
`completed_at`. -/
def markCompleted (r : RawRecord) (now : Nat) : RawRecord :=
  { r with status := completedStatus, completedAt := some now }

/-- `process_session` on a loaded session: run the interactive assignment;
an empty mapping aborts (`False`) before any status change, as does an
empty final transcript; otherwise the final transcript is saved and the
session is marked completed. -/
def processSession (r : RawRecord) (fs : List (List Char))
    (inp : List Char → List Char) (now : Nat) : Bool × RawRecord :=
  let m := buildMappings r.transcripts fs inp
  if m = [] then (false, r)
  else
    match generateFinal r.transcripts m r.sessionName with
    | none => (false, r)
    | some _ => (true, markCompleted r now)

/-!
### Cross-session speaker organizer (speaker_organizer.py)
-/

/-- Shell-style glob matching (`fnmatch` restricted to the `*` wildcard,
the only metacharacter in the organizer's patterns); `fuel` bounds the
search, `pattern.length + name.length + 1` always suffices. -/
def globMatchF : Nat → List Char → List Char → Bool
  | 0, _, _ => false
  | _ + 1, [], [] => true
  | f + 1, '*' :: ps, [] => globMatchF f ps []
  | _ + 1, _ :: _, [] => false
  | _ + 1, [], _ :: _ => false
  | f + 1, p :: ps, c :: cs =>
    if p = '*' then globMatchF f ps (c :: cs) || globMatchF f ('*' :: ps) cs
    else p = c && globMatchF f ps cs

def globMatch (p s : List Char) : Bool := globMatchF (p.length + s.length + 1) p s

/-- Is `n` a prefix of `h`? -/
def startsWithL : List Char → List Char → Bool
  | [], _ => true
  | _ :: _, [] => false
  | a :: as, b :: bs => a = b && startsWithL as bs

/-- Python `needle in haystack` substring test. -/
def hasSub (n : List Char) : List Char → Bool
  | [] => startsWithL n []
  | c :: t => startsWithL n (c :: t) || hasSub n t

/-- One finalized transcript line as the organizer consumes it: the
(resolved) speaker name, the numeric timestamp in tenths, the duration. -/
structure CEntry where
  speaker : List Char
  tsTenths : Nat
  dur : ℚ
deriving DecidableEq, Repr

/-- One element of `speaker_segments[speaker_name]`. -/
structure SegInfo where
  sessionName : List Char
  speakerName : List Char
  speakerId : List Char
  file : List Char
  tsTenths : Nat
  dur : ℚ
deriving DecidableEq, Repr

/-- One input session for an aggregation run: its name, its
`speaker_mappings`, its finalized transcript entries, and the listing of
its `segments/` directory. -/
structure SessionInput where
  name : List Char
  mappings : List (List Char × List Char)
  entries : List CEntry
  dir : List (List Char)
deriving DecidableEq, Repr

/-- The reverse lookup `for sid, sname in speaker_mappings.items(): if
sname == speaker_name: speaker_id = sid; break`. -/
def reverseLookup (m : List (List Char × List Char)) (name : List Char) :
    Option (List Char) :=
  (m.find? (fun p => decide (p.2 = name))).map (·.1)

/-- `f"*_{speaker_id}_*_{timestamp:.1f}s-*.wav"`. -/
def primaryPattern (sid : List Char) (ts : Nat) : List Char :=
  '*' :: '_' :: sid ++ '_' :: '*' :: '_' :: showTenths ts
    ++ 's' :: '-' :: '*' :: '.' :: 'w' :: 'a' :: 'v' :: []

/-- `f"*_{speaker_id}_*.wav"`. -/
def fallbackPattern (sid : List Char) : List Char :=
  '*' :: '_' :: sid ++ '_' :: '*' :: '.' :: 'w' :: 'a' :: 'v' :: []

/-- The two-stage file lookup of `collect_speaker_segments`: primary glob
by exact timestamp; if it matches nothing, the broad per-speaker glob
filtered by the timestamp substring `f"{timestamp:.1f}s"`. -/
def entryMatches (dir : List (List Char)) (sid : List Char) (ts : Nat) :
    List (List Char) :=
  let prim := dir.filter (fun n => globMatch (primaryPattern sid ts) n)
  if prim = [] then
    (dir.filter (fun n => globMatch (fallbackPattern sid) n)).filter
      (fun n => hasSub (showTenths ts ++ ['s']) n)
  else prim

/-- Processing of one transcript entry by `collect_speaker_segments`: no
reverse mapping (or a falsy empty one) drops the entry with a warning;
otherwise one `SegInfo` per matched file is collected. -/
def collectEntry (s : SessionInput) (e : CEntry) : List SegInfo :=
  match reverseLookup s.mappings e.speaker with
  | none => []
  | some sid =>
    if sid = [] then []
    else (entryMatches s.dir sid e.tsTenths).map
      (fun f => ⟨s.name, e.speaker, sid, f, e.tsTenths, e.dur⟩)

/-- `collect_speaker_segments` over one session's transcript. -/
def collectSession (s : SessionInput) : List SegInfo :=
  flatMapL (collectEntry s) s.entries

/-- All collected segment infos of an aggregation run. -/
def collectAll (ss : List SessionInput) : List SegInfo :=
  flatMapL collectSession ss

/-- Append `i` to the group of its key (Python
`speaker_segments[speaker_name].append(segment_info)`). -/
def groupIns : List (List Char × List SegInfo) → List Char → SegInfo →
    List (List Char × List SegInfo)
  | [], k, i => [(k, [i])]
  | g :: gs, k, i =>
    if g.1 = k then (g.1, g.2 ++ [i]) :: gs else g :: groupIns gs k i

/-- The `speaker_segments` dictionary, keyed by speaker name. -/
def groupBySpeaker (infos : List SegInfo) : List (List Char × List SegInfo) :=
  infos.foldl (fun g i => groupIns g i.speakerName i) []

/-- The copy loop of `organize_speaker_directories` for one speaker
directory.  State: (copied, already-existing, missing, destination
listing).  `present i` is the `source_file.exists()` re-check at copy
time. -/
def organizeGroupAux (present : SegInfo → Bool) :
    List SegInfo → Nat × Nat × Nat × List (List Char) →
      Nat × Nat × Nat × List (List Char)
  | [], st => st
  | i :: rest, (c, a, m, dest) =>
    let nf := i.sessionName ++ '_' :: i.file
    if present i then
      if nf ∈ dest then organizeGroupAux present rest (c, a + 1, m, dest)
      else organizeGroupAux present rest (c + 1, a, m, nf :: dest)
    else organizeGroupAux present rest (c, a, m + 1, dest)

/-- Counts for one speaker directory, starting from its existing listing. -/
def organizeGroup (present : SegInfo → Bool) (destInit : List (List Char))
    (infos : List SegInfo) : Nat × Nat × Nat :=
  let st := organizeGroupAux present infos (0, 0, 0, destInit)
  (st.1, st.2.1, st.2.2.1)

/-- `organize_speaker_directories` over all speaker groups; `destOf` is the
pre-existing listing of each speaker's directory.  Returns the summed
(copied, already-existing, missing) counts. -/
def organizeAll (present : SegInfo → Bool) (destOf : List Char → List (List Char)) :
    List (List Char × List SegInfo) → Nat × Nat × Nat
  | [] => (0, 0, 0)
  | g :: gs =>
    let h := organizeGroup present (destOf g.1) g.2
    let r := organizeAll present destOf gs
    (h.1 + r.1, h.2.1 + r.2.1, h.2.2 + r.2.2)

/-- Total number of finalized transcript entries across an aggregation
run's input sessions. -/
def totalEntries (ss : List SessionInput) : Nat :=
  (flatMapL (fun s => s.entries) ss).length

/-- The speaker-label group the transcript regex extracts from a filename,
when it matches. -/
def speakerOfFile (f : List Char) : Option (List Char) :=
  (parseFilename f).map (fun p => p.2.speaker)

/-!
### Concrete inputs used by witnesses and counterexamples
-/

/-- Scenario A of the spec: raw intervals `[(0,0.5,A), (1,3,A), (4,6,B)]`. -/
def intervalsA : List RawInterval :=
  [⟨0, 1 / 2, "A".data⟩, ⟨1, 3, "A".data⟩, ⟨4, 6, "B".data⟩]

/-- A 0.99-time-unit interval, the spec's dropped boundary case. -/
def shortIv : RawInterval := ⟨0, 99 / 100, "A".data⟩

/-- A two-speaker transcript collection with both segment files on disk. -/
def tsW : List (List Char × TEntryRaw) :=
  [("sess_SPEAKER_00_000_1.0s-3.0s.wav".data,
      ⟨"SPEAKER_00".data, 1, 3, 2, "hi".data⟩),
   ("sess_SPEAKER_01_000_4.0s-6.0s.wav".data,
      ⟨"SPEAKER_01".data, 4, 6, 2, "ho".data⟩)]

def fsW : List (List Char) :=
  ["sess_SPEAKER_00_000_1.0s-3.0s.wav".data,
   "sess_SPEAKER_01_000_4.0s-6.0s.wav".data]

/-- A raw-transcript record as the overnight run persists it. -/
def recW : RawRecord := mkRawRecord "sess".data tsW 99

/-- One transcript entry whose segment audio file is no longer on disk. -/
def tsC4 : List (List Char × TEntryRaw) :=
  [("sess_SPEAKER_00_000_1.0s-2.0s.wav".data,
      ⟨"SPEAKER_00".data, 1, 2, 1, "x".data⟩)]

/-- An aggregation input whose single entry (timestamp 1.0) is matched by
the fallback pattern to two segment files (`11.0s` and `21.0s` both contain
the substring `1.0s`, while the primary pattern `*_1.0s-*` matches
neither). -/
def csC3 : SessionInput :=
  ⟨"a".data, [("SPEAKER_00".data, "SPEAKER_00".data)],
   [⟨"SPEAKER_00".data, 10, 1⟩],
   ["a_SPEAKER_00_000_11.0s-2.0s.wav".data,
    "a_SPEAKER_00_001_21.0s-3.0s.wav".data]⟩

/-- Source-existence check for the `csC3` run: its directory listing. -/
def presC3 : SegInfo → Bool := fun i => csC3.dir.contains i.file

/-- A parseable segment filename of speaker `SPEAKER_00`. -/
def f00 : List Char := "m_SPEAKER_00_000_1.0s-2.0s.wav".data

/-- A parseable segment filename of speaker `SPEAKER_01`. -/
def f01 : List Char := "m_SPEAKER_01_000_3.0s-5.0s.wav".data

/-- Two parseable segment files of two speakers. -/
def filesC10 : List (List Char) := [f00, f01]

/-- Whisper oracle: whitespace for SPEAKER_00's segment, text otherwise. -/
def oracleC10 : List Char → Option (List Char) := fun f =>
  if f = f00 then some "   ".data else some " Hallo ".data

/-- Whisper oracle: raises (`none`) on SPEAKER_00's segment. -/
def oracleC7 : List Char → Option (List Char) := fun f =>
  if f = f00 then none else some "Hallo".data

/-- A session directory holding the two segment files, not yet
transcribed. -/
def sC8 : SessionFS := ⟨filesC10, none⟩

/-!
## Helper lemmas
-/

theorem lookupL_eq_none_iff (k : List Char) (l : List (List Char × α)) :
    lookupL k l = none ↔ ∀ p ∈ l, p.1 ≠ k := by
  induction l with
  | nil => simp [lookupL]
  | cons p t ih =>
    simp only [lookupL, List.forall_mem_cons]
    by_cases h : p.1 = k
    · rw [if_pos h]
      constructor
      · intro he
        exact Option.noConfusion he
      · rintro ⟨h1, -⟩
        exact absurd h h1
    · rw [if_neg h, ih]
      constructor
      · intro ha
        exact ⟨h, ha⟩
      · rintro ⟨-, ha⟩
        exact ha

theorem lookupL_append_some (k : List Char) (a b : List (List Char × α)) (v : α) :
    lookupL k a = some v → lookupL k (a ++ b) = some v := by
  induction a with
  | nil => intro h; exact absurd h (by simp [lookupL])
  | cons p t ih =>
    intro h
    rw [List.cons_append]
    simp only [lookupL] at h ⊢
    by_cases hp : p.1 = k
    · rw [if_pos hp] at h ⊢
      exact h
    · rw [if_neg hp] at h ⊢
      exact ih h

theorem lookupL_append_key_isSome (k : List Char) (a : List (List Char × α)) (v : α) :
    (lookupL k (a ++ [(k, v)])).isSome = true := by
  induction a with
  | nil => simp [lookupL]
  | cons p t ih =>
    rw [List.cons_append]
    simp only [lookupL]
    by_cases hp : p.1 = k
    · rw [if_pos hp]
      rfl
    · rw [if_neg hp]
      exact ih

theorem mem_insertBy (lt : α → α → Bool) (x a : α) (l : List α) :
    a ∈ insertBy lt x l ↔ a = x ∨ a ∈ l := by
  induction l with
  | nil => simp [insertBy]
  | cons y ys ih =>
    by_cases h : lt y x = true
    · simp only [insertBy, if_pos h, List.mem_cons, ih]
      tauto
    · simp only [insertBy, if_neg h, List.mem_cons]

theorem mem_sortBy (lt : α → α → Bool) (a : α) (l : List α) :
    a ∈ sortBy lt l ↔ a ∈ l := by
  induction l with
  | nil => simp [sortBy]
  | cons y ys ih => simp [sortBy, mem_insertBy, ih]

theorem length_insertBy (lt : α → α → Bool) (x : α) (l : List α) :
    (insertBy lt x l).length = l.length + 1 := by
  induction l with
  | nil => simp [insertBy]
  | cons y ys ih =>
    by_cases h : lt y x = true
    · simp [insertBy, if_pos h, ih]
    · simp [insertBy, if_neg h]

theorem length_sortBy (lt : α → α → Bool) (l : List α) :
    (sortBy lt l).length = l.length := by
  induction l with
  | nil => rfl
  | cons y ys ih => simp [sortBy, length_insertBy, ih]

theorem take3_ne_nil (l : List α) (h : l ≠ []) : l.take 3 ≠ [] := by
  cases l with
  | nil => exact absurd rfl h
  | cons x t => simp [List.take]

theorem flatMapL_append (f : α → List β) (a b : List α) :
    flatMapL f (a ++ b) = flatMapL f a ++ flatMapL f b := by
  induction a with
  | nil => rfl
  | cons x t ih => simp [flatMapL, ih]

theorem length_flatMapL (f : α → List β) (l : List α) :
    (flatMapL f l).length = (l.map (fun x => (f x).length)).sum := by
  induction l with
  | nil => rfl
  | cons x t ih => simp [flatMapL, ih]

theorem mem_flatMapL (f : α → List β) (b : β) (l : List α) :
    b ∈ flatMapL f l ↔ ∃ a ∈ l, b ∈ f a := by
  induction l with
  | nil => simp [flatMapL]
  | cons x t ih => simp [flatMapL, ih]

theorem transcribeSegments_cons (f : List Char) (fs : List (List Char))
    (oracle : List Char → Option (List Char)) :
    transcribeSegments (f :: fs) oracle = keptEntry oracle f ++ transcribeSegments fs oracle := by
  simp only [transcribeSegments, keptEntry]
  cases parseFilename f with
  | none => simp
  | some p =>
    cases oracle f with
    | none => simp
    | some txt =>
      by_cases ht : pyStrip txt = []
      · simp [ht]
      · simp [ht]

theorem transcribe_eq_flatMap (files : List (List Char))
    (oracle : List Char → Option (List Char)) :
    transcribeSegments files oracle = flatMapL (keptEntry oracle) files := by
  induction files with
  | nil => rfl
  | cons f fs ih =>
    rw [transcribeSegments_cons, ih]
    rfl

theorem speakersOf_nil : speakersOf [] = [] := rfl

theorem buildMappings_nil_of (ts : List (List Char × TEntryRaw)) (fs : List (List Char))
    (inp : List Char → List Char) (h : speakersOf ts = []) :
    buildMappings ts fs inp = [] := by
  unfold buildMappings
  rw [h]
  rfl

theorem buildMappings_congr (ts : List (List Char × TEntryRaw)) (fs : List (List Char))
    (i1 i2 : List Char → List Char)
    (hp : ∀ s, (processName s (i1 s)).1 = (processName s (i2 s)).1) :
    buildMappings ts fs i1 = buildMappings ts fs i2 := by
  unfold buildMappings
  have hstep : ∀ (S : List (List Char)) (acc : List (List Char × List Char)),
      S.foldl (fun m s => if findAudioSamples ts fs s = [] then m
        else m ++ [(s, (processName s (i1 s)).1)]) acc
      = S.foldl (fun m s => if findAudioSamples ts fs s = [] then m
        else m ++ [(s, (processName s (i2 s)).1)]) acc := by
    intro S
    induction S with
    | nil => intro acc; rfl
    | cons x S ih =>
      intro acc
      simp only [List.foldl_cons]
      rw [hp x]
      exact ih _
  exact hstep _ _

theorem mem_buildMappings (ts : List (List Char × TEntryRaw)) (fs : List (List Char))
    (inp : List Char → List Char) (p : List Char × List Char)
    (h : p ∈ buildMappings ts fs inp) :
    p.1 ∈ speakersOf ts ∧ p.2 = (processName p.1 (inp p.1)).1 := by
  unfold buildMappings at h
  have hgen : ∀ (S : List (List Char)) (acc : List (List Char × List Char)),
      p ∈ S.foldl (fun m s => if findAudioSamples ts fs s = [] then m
        else m ++ [(s, (processName s (inp s)).1)]) acc →
      p ∈ acc ∨ (p.1 ∈ S ∧ p.2 = (processName p.1 (inp p.1)).1) := by
    intro S
    induction S with
    | nil => intro acc hm; exact Or.inl hm
    | cons x S ih =>
      intro acc hm
      rcases ih _ hm with hacc | hgood
      · have hacc' : p ∈ (if findAudioSamples ts fs x = [] then acc
            else acc ++ [(x, (processName x (inp x)).1)]) := hacc
        by_cases hx : findAudioSamples ts fs x = []
        · rw [if_pos hx] at hacc'
          exact Or.inl hacc'
        · rw [if_neg hx] at hacc'
          rcases List.mem_append.mp hacc' with hl | hr
          · exact Or.inl hl
          · have hpe : p = (x, (processName x (inp x)).1) := by simpa using hr
            refine Or.inr ⟨?_, ?_⟩
            · rw [hpe]
              exact List.mem_cons_self _ _
            · rw [hpe]
      · exact Or.inr ⟨List.mem_cons_of_mem _ hgood.1, hgood.2⟩
  rcases hgen (speakersOf ts) [] h with hacc | hgood
  · cases hacc
  · exact hgood

/-!
## Claim theorems
-/

/-- C6.  For each label presented during speaker assignment: the input
`skip` (any casing) or the empty input maps the label to itself; any other
input is accepted as the durable name exactly when its remainder after
removing spaces, hyphens and underscores is alphanumeric; a failing input
falls back to the label with the warning printed. -/
theorem name_validation (sid raw : List Char) (h : raw ≠ sid) :
    (toLowerL raw = "skip".data ∨ toLowerL raw = [] → processName sid raw = (sid, false))
    ∧ ((processName sid raw).1 = raw ↔
        ¬(toLowerL raw = "skip".data ∨ toLowerL raw = []) ∧ pyIsAlnum (stripSep raw) = true)
    ∧ (¬(toLowerL raw = "skip".data ∨ toLowerL raw = []) →
        pyIsAlnum (stripSep raw) = false → processName sid raw = (sid, true)) := by
  unfold processName
  by_cases hs : toLowerL raw = "skip".data ∨ toLowerL raw = []
  · rw [if_pos hs]
    refine ⟨fun _ => rfl, ?_, fun hn _ => absurd hs hn⟩
    constructor
    · intro he
      exact absurd he.symm h
    · rintro ⟨hn, -⟩
      exact absurd hs hn
  · rw [if_neg hs]
    by_cases ha : pyIsAlnum (stripSep raw) = true
    · rw [if_pos ha]
      refine ⟨fun hc => absurd hc hs, ⟨fun _ => ⟨hs, ha⟩, fun _ => rfl⟩, fun _ hf => ?_⟩
      rw [ha] at hf
      cases hf
    · rw [if_neg ha]
      have ha' : pyIsAlnum (stripSep raw) = false := by
        cases hv : pyIsAlnum (stripSep raw)
        · rfl
        · exact absurd hv ha
      refine ⟨fun hc => absurd hc hs, ?_, fun _ _ => rfl⟩
      constructor
      · intro he
        exact absurd he.symm h
      · rintro ⟨-, hv⟩
        exact absurd hv ha

/-- C6 witness: the invalid proposed name `Al!ce` for `SPEAKER_00` falls
back to the label with the warning flagged. -/
theorem name_validation_witness :
    processName "SPEAKER_00".data "Al!ce".data = ("SPEAKER_00".data, true) :=
  (name_validation "SPEAKER_00".data "Al!ce".data (by decide)).2.2 (by decide) (by decide)

/-- C9.  The empty input at the name prompt behaves exactly like `skip`:
the label is mapped to itself without a validation warning, the whole
assignment run gives the same mapping as an all-`skip` run, and that
mapping is the identity on its keys. -/
theorem empty_input_like_skip (sid : List Char) (ts : List (List Char × TEntryRaw))
    (fs : List (List Char)) :
    processName sid [] = (sid, false)
    ∧ processName sid [] = processName sid "skip".data
    ∧ buildMappings ts fs (fun _ => []) = buildMappings ts fs (fun _ => "skip".data)
    ∧ (buildMappings ts fs (fun _ => [])).all (fun p => p.1 == p.2) = true := by
  have h0 : ∀ s : List Char, processName s [] = (s, false) := fun s => by
    simp [processName, toLowerL]
  have h1 : ∀ s : List Char, processName s "skip".data = (s, false) := fun s => by
    have hsk : toLowerL "skip".data = "skip".data := by decide
    simp [processName, hsk]
  refine ⟨h0 sid, by rw [h0 sid, h1 sid], ?_, ?_⟩
  · exact buildMappings_congr ts fs _ _ (fun s => by simp only [h0 s, h1 s])
  · rw [List.all_eq_true]
    intro p hp
    have hm := mem_buildMappings ts fs (fun _ => []) p hp
    have hp2 : p.2 = p.1 := by
      rw [hm.2]
      simp only [h0 p.1]
    rw [hp2]
    simp

/-- C5.  With a session loaded in `awaiting_speaker_assignment`, the
status becomes `completed` exactly when the assignment produced a
non-empty speaker mapping; the transition stamps `completed_at`; and a
session with zero distinct ephemeral labels yields an empty mapping and is
left untouched. -/
theorem completion_transition (r : RawRecord) (fs : List (List Char))
    (inp : List Char → List Char) (now : Nat) (h : r.status = awaitingStatus) :
    ((processSession r fs inp now).2.status = completedStatus ↔
      buildMappings r.transcripts fs inp ≠ [])
    ∧ ((processSession r fs inp now).2.status = completedStatus →
        (processSession r fs inp now).2.completedAt = some now)
    ∧ (speakersOf r.transcripts = [] →
        buildMappings r.transcripts fs inp = [] ∧ processSession r fs inp now = (false, r)) := by
  have hne : awaitingStatus ≠ completedStatus := by decide
  by_cases hm : buildMappings r.transcripts fs inp = []
  · have hps : processSession r fs inp now = (false, r) := by
      simp only [processSession, hm, if_pos]
    rw [hps]
    refine ⟨?_, ?_, fun _ => ⟨hm, rfl⟩⟩
    · rw [h]; simp [hne, hm]
    · rw [h]; intro hc; exact absurd hc hne
  · have hts : r.transcripts ≠ [] := by
      intro he
      exact hm (buildMappings_nil_of _ _ _ (by rw [he]; exact speakersOf_nil))
    have hps : processSession r fs inp now = (true, markCompleted r now) := by
      simp only [processSession, if_neg hm, generateFinal, if_neg hts]
    rw [hps]
    refine ⟨?_, fun _ => rfl, ?_⟩
    · simp [markCompleted, hm]
    · intro hsp
      exact absurd (buildMappings_nil_of _ _ _ hsp) hm

/-- C5 witness: a concrete two-speaker session in
`awaiting_speaker_assignment`, resolved with `skip` answers. -/
theorem completion_transition_witness :
    ((processSession recW fsW (fun _ => "skip".data) 123).2.status = completedStatus ↔
      buildMappings recW.transcripts fsW (fun _ => "skip".data) ≠ [])
    ∧ ((processSession recW fsW (fun _ => "skip".data) 123).2.status = completedStatus →
        (processSession recW fsW (fun _ => "skip".data) 123).2.completedAt = some 123)
    ∧ (speakersOf recW.transcripts = [] →
        buildMappings recW.transcripts fsW (fun _ => "skip".data) = []
        ∧ processSession recW fsW (fun _ => "skip".data) 123 = (false, recW)) :=
  completion_transition recW fsW (fun _ => "skip".data) 123 rfl

/-- C2.  An interval survives the segment filter exactly when its duration
is at least 1.0 time units; a duration of exactly 1 is kept and 0.99 is
dropped; a dropped interval's row appears nowhere in the persisted
timeline; and one address/audio file is produced per kept interval. -/
theorem segment_filter_threshold (sid : List Char) (l : List RawInterval) (i : RawInterval) :
    (i ∈ meaningfulSegments l ↔ i ∈ l ∧ 1 ≤ dur i)
    ∧ (dur i = 1 → i ∈ l → i ∈ meaningfulSegments l)
    ∧ (dur i = 99 / 100 → i ∉ meaningfulSegments l)
    ∧ (dur i < 1 → timelineEntry i ∉ timelineData l)
    ∧ (extractSpeakerSegments sid (meaningfulSegments l)).length
        = (meaningfulSegments l).length := by
  have h1 : i ∈ meaningfulSegments l ↔ i ∈ l ∧ 1 ≤ dur i := by
    simp [meaningfulSegments, List.mem_filter]
  refine ⟨h1, ?_, ?_, ?_, ?_⟩
  · intro hd hm
    exact h1.mpr ⟨hm, le_of_eq hd.symm⟩
  · intro hd hm
    have h2 := (h1.mp hm).2
    rw [hd] at h2
    norm_num at h2
  · intro hd hm
    obtain ⟨j, hj, he⟩ := List.mem_map.mp hm
    have hj1 : 1 ≤ dur j := by
      have := (List.mem_filter.mp hj).2
      simpa using this
    have hde : dur j = dur i := congrArg (fun t => t.2.2.1) he
    rw [hde] at hj1
    linarith
  · simp [extractSpeakerSegments]

/-- C2 witness: in Scenario A's interval list the 2-unit interval is kept
while the 0.99-unit interval's row is absent from the timeline. -/
theorem segment_filter_threshold_witness :
    (⟨1, 3, "A".data⟩ : RawInterval) ∈ meaningfulSegments intervalsA
    ∧ timelineEntry shortIv ∉ timelineData intervalsA :=
  ⟨(segment_filter_threshold "s".data intervalsA ⟨1, 3, "A".data⟩).1.mpr
      ⟨by simp [intervalsA], by norm_num [dur]⟩,
   (segment_filter_threshold "s".data intervalsA shortIv).2.2.2.1
      (by norm_num [dur, shortIv])⟩

theorem keptEntry_eq_noparse (oracle : List Char → Option (List Char)) (f : List Char)
    (h : parseFilename f = none) : keptEntry oracle f = [] := by
  unfold keptEntry
  rw [h]

theorem keptEntry_eq_err (oracle : List Char → Option (List Char)) (f : List Char)
    (p : List Char × TailGroups) (h : parseFilename f = some p) (h2 : oracle f = none) :
    keptEntry oracle f = [] := by
  unfold keptEntry
  rw [h, h2]

theorem keptEntry_eq_ws (oracle : List Char → Option (List Char)) (f : List Char)
    (p : List Char × TailGroups) (w : List Char) (h : parseFilename f = some p)
    (h2 : oracle f = some w) (h3 : pyStrip w = []) : keptEntry oracle f = [] := by
  unfold keptEntry
  rw [h, h2]
  simp [h3]

theorem keptEntry_eq_kept (oracle : List Char → Option (List Char)) (f : List Char)
    (p : List Char × TailGroups) (w : List Char) (h : parseFilename f = some p)
    (h2 : oracle f = some w) (h3 : pyStrip w ≠ []) :
    keptEntry oracle f
      = [(f, ⟨p.2.speaker, p.2.start, p.2.stop, p.2.stop - p.2.start, pyStrip w⟩)] := by
  unfold keptEntry
  rw [h, h2]
  simp [h3]

theorem keptEntry_char (oracle : List Char → Option (List Char)) (f : List Char)
    (q : List Char × TEntryRaw) (h : q ∈ keptEntry oracle f) :
    q.1 = f ∧ ∃ g, parseFilename f = some g
      ∧ (∃ w, oracle f = some w ∧ pyStrip w ≠ []) ∧ q.2.speakerId = g.2.speaker := by
  cases hp : parseFilename f with
  | none =>
    rw [keptEntry_eq_noparse oracle f hp] at h
    cases h
  | some g =>
    cases ho : oracle f with
    | none =>
      rw [keptEntry_eq_err oracle f g hp ho] at h
      cases h
    | some w =>
      by_cases hw : pyStrip w = []
      · rw [keptEntry_eq_ws oracle f g w hp ho hw] at h
        cases h
      · rw [keptEntry_eq_kept oracle f g w hp ho hw, List.mem_singleton] at h
        subst h
        exact ⟨rfl, g, rfl, ⟨w, rfl, hw⟩, rfl⟩

theorem mem_transcribe_file (files : List (List Char))
    (oracle : List Char → Option (List Char)) (p : List Char × TEntryRaw)
    (h : p ∈ transcribeSegments files oracle) : p.1 ∈ files := by
  rw [transcribe_eq_flatMap, mem_flatMapL] at h
  obtain ⟨a, ha, hq⟩ := h
  rw [(keptEntry_char oracle a p hq).1]
  exact ha

/-- C7.  A segment whose transcription call raises is skipped alone: the
session's transcripts equal those of the same run without that file, and
the session still persists its raw record in `awaiting_speaker_assignment`
whenever at least one transcript entry exists. -/
theorem transcription_error_isolated (xs ys : List (List Char)) (f name : List Char)
    (oracle : List Char → Option (List Char)) (now : Nat) (h : oracle f = none) :
    transcribeSegments (xs ++ f :: ys) oracle = transcribeSegments (xs ++ ys) oracle
    ∧ (transcribeSegments (xs ++ ys) oracle ≠ [] →
        processSessionTranscriptionOnly name (xs ++ f :: ys) oracle now
          = some (mkRawRecord name (transcribeSegments (xs ++ ys) oracle) now)
        ∧ (mkRawRecord name (transcribeSegments (xs ++ ys) oracle) now).status
            = awaitingStatus) := by
  have hz : keptEntry oracle f = [] := by
    cases hp : parseFilename f with
    | none => exact keptEntry_eq_noparse oracle f hp
    | some g => exact keptEntry_eq_err oracle f g hp h
  have he : transcribeSegments (xs ++ f :: ys) oracle
      = transcribeSegments (xs ++ ys) oracle := by
    simp only [transcribe_eq_flatMap, flatMapL_append, flatMapL, hz, List.nil_append]
  refine ⟨he, fun hne => ⟨?_, rfl⟩⟩
  unfold processSessionTranscriptionOnly
  simp only [he, if_neg hne]

/-- C7 witness: `oracleC7` raises on `f00`; the session of `[f01, f00]`
still transcribes `f01` and reaches `awaiting_speaker_assignment`. -/
theorem transcription_error_isolated_witness :
    transcribeSegments ([f01] ++ f00 :: []) oracleC7
      = transcribeSegments ([f01] ++ []) oracleC7
    ∧ processSessionTranscriptionOnly "m".data ([f01] ++ f00 :: []) oracleC7 7
        = some (mkRawRecord "m".data (transcribeSegments ([f01] ++ []) oracleC7) 7)
    ∧ (mkRawRecord "m".data (transcribeSegments ([f01] ++ []) oracleC7) 7).status
        = awaitingStatus := by
  have T := transcription_error_isolated [f01] [] f00 "m".data oracleC7 7 (by decide)
  exact ⟨T.1, (T.2 (by decide)).1, (T.2 (by decide)).2⟩

/-- C8.  A segment whose transcription is empty after stripping produces
no transcript entry (its key is absent), the rest of the session is
unaffected and still reaches `awaiting_speaker_assignment` when another
entry exists, and the transcription stage leaves the segment audio files
untouched. -/
theorem empty_transcription_dropped (xs ys : List (List Char)) (f w name : List Char)
    (oracle : List Char → Option (List Char)) (now : Nat) (s : SessionFS)
    (h1 : oracle f = some w) (h2 : pyStrip w = []) (h3 : f ∉ xs) (h4 : f ∉ ys) :
    transcribeSegments (xs ++ f :: ys) oracle = transcribeSegments (xs ++ ys) oracle
    ∧ lookupL f (transcribeSegments (xs ++ f :: ys) oracle) = none
    ∧ (transcribeSegments (xs ++ ys) oracle ≠ [] →
        processSessionTranscriptionOnly name (xs ++ f :: ys) oracle now
          = some (mkRawRecord name (transcribeSegments (xs ++ ys) oracle) now)
        ∧ (mkRawRecord name (transcribeSegments (xs ++ ys) oracle) now).status
            = awaitingStatus)
    ∧ (runTranscriptionStage name s oracle now).segmentFiles = s.segmentFiles := by
  have hz : keptEntry oracle f = [] := by
    cases hp : parseFilename f with
    | none => exact keptEntry_eq_noparse oracle f hp
    | some g => exact keptEntry_eq_ws oracle f g w hp h1 h2
  have he : transcribeSegments (xs ++ f :: ys) oracle
      = transcribeSegments (xs ++ ys) oracle := by
    simp only [transcribe_eq_flatMap, flatMapL_append, flatMapL, hz, List.nil_append]
  refine ⟨he, ?_, fun hne => ?_, ?_⟩
  · rw [he, lookupL_eq_none_iff]
    intro p hp hpe
    have hmem := mem_transcribe_file _ oracle p hp
    rw [hpe] at hmem
    rcases List.mem_append.mp hmem with hl | hr
    · exact h3 hl
    · exact h4 hr
  · refine ⟨?_, rfl⟩
    unfold processSessionTranscriptionOnly
    simp only [he, if_neg hne]
  · unfold runTranscriptionStage
    cases processSessionTranscriptionOnly name s.segmentFiles oracle now <;> rfl

/-- C8 witness: `f00` transcribes to `"   "`; it produces no entry, `f01`
is still transcribed, the session reaches `awaiting_speaker_assignment`,
and the segment listing is unchanged. -/
theorem empty_transcription_dropped_witness :
    lookupL f00 (transcribeSegments ([f01] ++ f00 :: []) oracleC10) = none
    ∧ processSessionTranscriptionOnly "m".data ([f01] ++ f00 :: []) oracleC10 7
        = some (mkRawRecord "m".data (transcribeSegments ([f01] ++ []) oracleC10) 7)
    ∧ (runTranscriptionStage "m".data sC8 oracleC10 7).segmentFiles = sC8.segmentFiles := by
  have T := empty_transcription_dropped [f01] [] f00 "   ".data "m".data oracleC10 7 sC8
    (by decide) (by decide) (by decide) (by decide)
  exact ⟨T.2.1, (T.2.2.1 (by decide)).1, T.2.2.2⟩

/-- C10.  An ephemeral label all of whose segments transcribe to
whitespace-only text appears in no transcript entry, is absent from
`speakers_detected`, absent from the distinct-label list of the assignment
stage, and hence never enters the domain of a speaker mapping. -/
theorem silent_label_excluded (L name : List Char) (files fs : List (List Char))
    (oracle : List Char → Option (List Char)) (now : Nat) (inp : List Char → List Char)
    (h : ∀ f ∈ files, speakerOfFile f = some L →
          ∃ w, oracle f = some w ∧ pyStrip w = []) :
    (∀ p ∈ transcribeSegments files oracle, p.2.speakerId ≠ L)
    ∧ L ∉ (mkRawRecord name (transcribeSegments files oracle) now).speakersDetected
    ∧ L ∉ speakersOf (transcribeSegments files oracle)
    ∧ lookupL L (buildMappings (transcribeSegments files oracle) fs inp) = none := by
  have hmain : ∀ p ∈ transcribeSegments files oracle, p.2.speakerId ≠ L := by
    intro p hp hL
    rw [transcribe_eq_flatMap, mem_flatMapL] at hp
    obtain ⟨a, ha, hq⟩ := hp
    obtain ⟨-, g, hg, ⟨w, hw, hwne⟩, hsp⟩ := keptEntry_char oracle a p hq
    have hso : speakerOfFile a = some L := by
      unfold speakerOfFile
      rw [hg]
      rw [hsp] at hL
      simp [hL]
    obtain ⟨w', hw', hw'e⟩ := h a ha hso
    rw [hw] at hw'
    injection hw' with hww
    rw [← hww] at hw'e
    exact hwne hw'e
  have hdet : L ∉ (mkRawRecord name (transcribeSegments files oracle) now).speakersDetected := by
    intro hmem
    have hd : (mkRawRecord name (transcribeSegments files oracle) now).speakersDetected
        = ((transcribeSegments files oracle).map (·.2.speakerId)).dedup := rfl
    rw [hd, List.mem_dedup, List.mem_map] at hmem
    obtain ⟨p, hp, hpe⟩ := hmem
    exact hmain p hp hpe
  have hspk : L ∉ speakersOf (transcribeSegments files oracle) := by
    intro hmem
    unfold speakersOf at hmem
    rw [mem_sortBy, List.mem_dedup, List.mem_map] at hmem
    obtain ⟨p, hp, hpe⟩ := hmem
    exact hmain p hp hpe
  refine ⟨hmain, hdet, hspk, ?_⟩
  rw [lookupL_eq_none_iff]
  intro p hp hpe
  have hk := (mem_buildMappings _ _ _ p hp).1
  rw [hpe] at hk
  exact hspk hk

/-- C10 witness: with `oracleC10` every segment of `SPEAKER_00`
transcribes to whitespace, so that label is nowhere downstream. -/
theorem silent_label_excluded_witness :
    "SPEAKER_00".data ∉
      (mkRawRecord "m".data (transcribeSegments filesC10 oracleC10) 7).speakersDetected
    ∧ "SPEAKER_00".data ∉ speakersOf (transcribeSegments filesC10 oracleC10)
    ∧ lookupL "SPEAKER_00".data
        (buildMappings (transcribeSegments filesC10 oracleC10) filesC10
          (fun _ => "skip".data)) = none := by
  have T := silent_label_excluded "SPEAKER_00".data "m".data filesC10 filesC10
    oracleC10 7 (fun _ => "skip".data) ?_
  · exact ⟨T.2.1, T.2.2.1, T.2.2.2⟩
  · intro f hf hso
    have hf' : f = f00 ∨ f = f01 := by simpa [filesC10] using hf
    rcases hf' with rfl | rfl
    · exact ⟨"   ".data, by decide, by decide⟩
    · exact absurd hso (by decide)

theorem sortBy_ne_nil (lt : α → α → Bool) (l : List α) (h : l ≠ []) :
    sortBy lt l ≠ [] := by
  intro he
  apply h
  have hl := length_sortBy lt l
  rw [he] at hl
  exact List.eq_nil_of_length_eq_zero hl.symm

theorem lookupL_isSome_fold (ts : List (List Char × TEntryRaw)) (fs : List (List Char))
    (inp : List Char → List Char) (sid : List Char) :
    ∀ (S : List (List Char)) (acc : List (List Char × List Char)),
      (lookupL sid acc).isSome = true →
      (lookupL sid (S.foldl (fun m s => if findAudioSamples ts fs s = [] then m
        else m ++ [(s, (processName s (inp s)).1)]) acc)).isSome = true := by
  intro S
  induction S with
  | nil => intro acc h; exact h
  | cons x S ih =>
    intro acc h
    simp only [List.foldl_cons]
    apply ih
    by_cases hx : findAudioSamples ts fs x = []
    · rw [if_pos hx]
      exact h
    · rw [if_neg hx]
      obtain ⟨v, hv⟩ := Option.isSome_iff_exists.mp h
      rw [lookupL_append_some sid acc _ v hv]
      rfl

theorem lookupL_isSome_buildMappings (ts : List (List Char × TEntryRaw))
    (fs : List (List Char)) (inp : List Char → List Char) (sid : List Char)
    (hsid : sid ∈ speakersOf ts) (hsam : findAudioSamples ts fs sid ≠ []) :
    (lookupL sid (buildMappings ts fs inp)).isSome = true := by
  unfold buildMappings
  have hgen : ∀ (S : List (List Char)) (acc : List (List Char × List Char)),
      sid ∈ S →
      (lookupL sid (S.foldl (fun m s => if findAudioSamples ts fs s = [] then m
        else m ++ [(s, (processName s (inp s)).1)]) acc)).isSome = true := by
    intro S
    induction S with
    | nil => intro acc h; cases h
    | cons x S ih =>
      intro acc h
      simp only [List.foldl_cons]
      rcases List.mem_cons.mp h with rfl | hS
      · apply lookupL_isSome_fold ts fs inp sid S
        rw [if_neg hsam]
        exact lookupL_append_key_isSome sid acc _
      · exact ih _ hS
  exact hgen _ [] hsid

/-- C4 counterexample: a session with one transcript entry for
`SPEAKER_00` whose audio file is gone from the segments directory; the
assignment loop passes the label over and the resulting mapping is empty,
so the label appears in the Transcript Entries but not in the mapping. -/
theorem mapping_coverage_cex :
    "SPEAKER_00".data ∈ tsC4.map (fun p => p.2.speakerId)
    ∧ buildMappings tsC4 [] (fun _ => "Alice".data) = [] := by
  constructor
  · decide
  · decide

/-- C4 (amended).  The resolved speaker mapping contains an entry for
every distinct ephemeral label that has at least one transcript entry
whose segment audio file is present on disk; a label whose audio files
are all missing is skipped and left out of the mapping. -/
theorem mapping_coverage (ts : List (List Char × TEntryRaw)) (fs : List (List Char))
    (inp : List Char → List Char) (sid : List Char)
    (h : ∃ p ∈ ts, p.2.speakerId = sid ∧ p.1 ∈ fs) :
    sid ∈ speakersOf ts ∧ (lookupL sid (buildMappings ts fs inp)).isSome = true := by
  obtain ⟨p, hp, hps, hpf⟩ := h
  have hsid : sid ∈ speakersOf ts := by
    unfold speakersOf
    rw [mem_sortBy, List.mem_dedup, List.mem_map]
    exact ⟨p, hp, hps⟩
  refine ⟨hsid, lookupL_isSome_buildMappings ts fs inp sid hsid ?_⟩
  unfold findAudioSamples
  apply take3_ne_nil
  apply sortBy_ne_nil
  apply List.ne_nil_of_mem (a := p)
  rw [List.mem_filter]
  exact ⟨hp, by simp [hps, hpf]⟩

/-- C4 witness: `SPEAKER_00` has an entry with its file present in `fsW`,
so it is covered by the mapping. -/
theorem mapping_coverage_witness :
    "SPEAKER_00".data ∈ speakersOf tsW
    ∧ (lookupL "SPEAKER_00".data
        (buildMappings tsW fsW (fun _ => "skip".data))).isSome = true :=
  mapping_coverage tsW fsW (fun _ => "skip".data) "SPEAKER_00".data
    ⟨_, List.mem_cons_self _ _, rfl, by decide⟩

theorem organizeGroupAux_total (present : SegInfo → Bool) (infos : List SegInfo) :
    ∀ (c a m : Nat) (dest : List (List Char)),
      (organizeGroupAux present infos (c, a, m, dest)).1
        + (organizeGroupAux present infos (c, a, m, dest)).2.1
        + (organizeGroupAux present infos (c, a, m, dest)).2.2.1
      = c + a + m + infos.length := by
  induction infos with
  | nil =>
    intro c a m dest
    simp [organizeGroupAux]
  | cons i rest ih =>
    intro c a m dest
    simp only [organizeGroupAux]
    by_cases hp : present i = true
    · simp only [if_pos hp]
      by_cases hd : (i.sessionName ++ '_' :: i.file) ∈ dest
      · simp only [if_pos hd]
        rw [ih]
        simp only [List.length_cons]
        omega
      · simp only [if_neg hd]
        rw [ih]
        simp only [List.length_cons]
        omega
    · simp only [if_neg hp]
      rw [ih]
      simp only [List.length_cons]
      omega

theorem organizeGroup_total (present : SegInfo → Bool) (destInit : List (List Char))
    (infos : List SegInfo) :
    (organizeGroup present destInit infos).1 + (organizeGroup present destInit infos).2.1
      + (organizeGroup present destInit infos).2.2 = infos.length := by
  unfold organizeGroup
  have h := organizeGroupAux_total present infos 0 0 0 destInit
  simpa using h

theorem organizeAll_total (present : SegInfo → Bool)
    (destOf : List Char → List (List Char)) (groups : List (List Char × List SegInfo)) :
    (organizeAll present destOf groups).1 + (organizeAll present destOf groups).2.1
      + (organizeAll present destOf groups).2.2
    = (groups.map (fun g => g.2.length)).sum := by
  induction groups with
  | nil => rfl
  | cons g gs ih =>
    simp only [organizeAll, List.map_cons, List.sum_cons]
    have h1 := organizeGroup_total present (destOf g.1) g.2
    omega

theorem groupIns_total (g : List (List Char × List SegInfo)) (k : List Char) (i : SegInfo) :
    ((groupIns g k i).map (fun p => p.2.length)).sum
      = (g.map (fun p => p.2.length)).sum + 1 := by
  induction g with
  | nil => simp [groupIns]
  | cons q gs ih =>
    simp only [groupIns]
    by_cases hq : q.1 = k
    · rw [if_pos hq]
      simp only [List.map_cons, List.sum_cons, List.length_append]
      simp
      omega
    · rw [if_neg hq]
      simp only [List.map_cons, List.sum_cons, ih]
      omega

theorem groupBySpeaker_total (infos : List SegInfo) :
    ((groupBySpeaker infos).map (fun p => p.2.length)).sum = infos.length := by
  unfold groupBySpeaker
  have hgen : ∀ (L : List SegInfo) (g : List (List Char × List SegInfo)),
      ((L.foldl (fun g i => groupIns g i.speakerName i) g).map (fun p => p.2.length)).sum
        = (g.map (fun p => p.2.length)).sum + L.length := by
    intro L
    induction L with
    | nil => intro g; simp
    | cons i L ih =>
      intro g
      simp only [List.foldl_cons]
      rw [ih, groupIns_total]
      simp only [List.length_cons]
      omega
  simpa using hgen infos []

theorem collectAll_length (ss : List SessionInput) :
    (collectAll ss).length
      = (ss.map (fun s => ((s.entries).map (fun e => (collectEntry s e).length)).sum)).sum := by
  induction ss with
  | nil => rfl
  | cons s ss ih =>
    simp only [collectAll, flatMapL, List.length_append, List.map_cons, List.sum_cons]
    have hs : (collectSession s).length
        = ((s.entries).map (fun e => (collectEntry s e).length)).sum := by
      unfold collectSession
      exact length_flatMapL _ _
    rw [hs]
    unfold collectAll at ih
    rw [ih]

/-- C3 counterexample: in the `csC3` run the single transcript entry is
matched by the fallback pattern to two segment files, both of which are
copied, so (copied) + (missing) = 2 while the session has exactly one
Transcript Entry. -/
theorem aggregation_conservation_cex :
    ¬ ((organizeAll presC3 (fun _ => []) (groupBySpeaker (collectAll [csC3]))).1
        + (organizeAll presC3 (fun _ => []) (groupBySpeaker (collectAll [csC3]))).2.2
      = totalEntries [csC3]) := by
  decide

/-- C3 (amended).  For every aggregation run,
(copied) + (already present at the destination) + (source file vanished,
reported missing) equals the total number of collected segment-infos, and
each Transcript Entry contributes one segment-info per audio file matched
by the primary-or-fallback lookup — possibly several (the fallback can
multi-match) or zero (entries with no reverse speaker mapping or no file
match are dropped with only a warning, not counted as missing). -/
theorem aggregation_conservation (present : SegInfo → Bool)
    (destOf : List Char → List (List Char)) (ss : List SessionInput) :
    (organizeAll present destOf (groupBySpeaker (collectAll ss))).1
      + (organizeAll present destOf (groupBySpeaker (collectAll ss))).2.1
      + (organizeAll present destOf (groupBySpeaker (collectAll ss))).2.2
      = (collectAll ss).length
    ∧ (collectAll ss).length
      = (ss.map (fun s => ((s.entries).map (fun e => (collectEntry s e).length)).sum)).sum := by
  refine ⟨?_, collectAll_length ss⟩
  rw [organizeAll_total, groupBySpeaker_total]

theorem digitVal_digitChar (n : Nat) (h : n < 10) : digitVal (digitChar n) = n := by
  interval_cases n <;> rfl

theorem isDigitC_digitChar (n : Nat) : isDigitC (digitChar n) = true := by
  rcases n with _|_|_|_|_|_|_|_|_|n <;> rfl

theorem digit_ne (c d : Char) (h : isDigitC c = true) (hd : isDigitC d = false) :
    ¬ c = d := by
  intro he
  rw [he, hd] at h
  cases h

theorem ofDigits0_append_single (x : List Char) (c : Char) :
    ofDigits0 (x ++ [c]) = 10 * ofDigits0 x + digitVal c := by
  unfold ofDigits0
  rw [List.foldl_append]
  rfl

theorem ofDigits0_single (c : Char) : ofDigits0 [c] = digitVal c := by
  unfold ofDigits0
  simp [List.foldl]

theorem ofDigits0_toDecA : ∀ (f n : Nat), n < f → ofDigits0 (toDecA f n) = n := by
  intro f
  induction f with
  | zero => intro n h; omega
  | succ f ih =>
    intro n h
    simp only [toDecA]
    by_cases h10 : n < 10
    · rw [if_pos h10]
      rw [ofDigits0_single, digitVal_digitChar n h10]
    · rw [if_neg h10]
      have hlt : n / 10 < n := Nat.div_lt_self (by omega) (by omega)
      rw [ofDigits0_append_single, ih (n / 10) (by omega),
        digitVal_digitChar (n % 10) (Nat.mod_lt n (by omega))]
      omega

theorem ofDigits0_toDec (n : Nat) : ofDigits0 (toDec n) = n :=
  ofDigits0_toDecA (n + 1) n (Nat.lt_succ_self n)

theorem toDecA_digits : ∀ (f n : Nat) (c : Char), c ∈ toDecA f n → isDigitC c = true := by
  intro f
  induction f with
  | zero => intro n c h; cases h
  | succ f ih =>
    intro n c h
    simp only [toDecA] at h
    by_cases h10 : n < 10
    · rw [if_pos h10] at h
      rw [List.mem_singleton] at h
      rw [h]
      exact isDigitC_digitChar n
    · rw [if_neg h10] at h
      rcases List.mem_append.mp h with hl | hr
      · exact ih _ c hl
      · rw [List.mem_singleton] at hr
        rw [hr]
        exact isDigitC_digitChar _

theorem toDec_digits (n : Nat) (c : Char) (h : c ∈ toDec n) : isDigitC c = true :=
  toDecA_digits (n + 1) n c h

theorem toDec_ne_nil (n : Nat) : toDec n ≠ [] := by
  unfold toDec toDecA
  by_cases h10 : n < 10
  · rw [if_pos h10]
    simp
  · rw [if_neg h10]
    simp

theorem pad3_digits (n : Nat) (c : Char) (h : c ∈ pad3 n) : isDigitC c = true := by
  unfold pad3 at h
  rcases List.mem_append.mp h with hl | hr
  · rw [List.eq_of_mem_replicate hl]
    rfl
  · exact toDec_digits n c hr

theorem pad3_ne_nil (n : Nat) : pad3 n ≠ [] := by
  unfold pad3
  intro h
  exact toDec_ne_nil n (List.append_eq_nil.mp h).2

theorem ofDigits0_zeros_append (k : Nat) (x : List Char) :
    ofDigits0 (List.replicate k '0' ++ x) = ofDigits0 x := by
  induction k with
  | zero => rfl
  | succ k ih =>
    rw [List.replicate_succ, List.cons_append]
    unfold ofDigits0 at ih ⊢
    rw [List.foldl_cons]
    exact ih

theorem ofDigits0_pad3 (n : Nat) : ofDigits0 (pad3 n) = n := by
  unfold pad3
  rw [ofDigits0_zeros_append, ofDigits0_toDec]

theorem takeDigits_append (d : List Char) (x : Char) (r : List Char)
    (hd : ∀ c ∈ d, isDigitC c = true) (hx : isDigitC x = false) :
    takeDigits (d ++ x :: r) = (d, x :: r) := by
  induction d with
  | nil =>
    rw [List.nil_append]
    simp [takeDigits, hx]
  | cons c d ih =>
    have hc : isDigitC c = true := hd c (List.mem_cons_self c d)
    have ih' := ih (fun u hu => hd u (List.mem_cons_of_mem c hu))
    rw [List.cons_append]
    simp [takeDigits, hc, ih']

theorem qVal_tenths (t : Nat) :
    qVal (toDec (t / 10)) [digitChar (t % 10)] = (t : ℚ) / 10 := by
  unfold qVal
  rw [ofDigits0_toDec, ofDigits0_single, digitVal_digitChar (t % 10) (Nat.mod_lt t (by omega))]
  have hc : ((10 * (t / 10) + t % 10 : ℕ) : ℚ) = (t : ℚ) := by
    exact_mod_cast Nat.div_add_mod t 10
  rw [List.length_singleton, pow_one, eq_div_iff (by norm_num : (10 : ℚ) ≠ 0), ← hc]
  push_cast
  ring

theorem expectLit_append (lit r : List Char) : expectLit lit (lit ++ r) = some r := by
  induction lit with
  | nil => rfl
  | cons c cs ih =>
    rw [List.cons_append]
    simp [expectLit, ih]

theorem expectLit_head_ne (x : Char) (cs : List Char) (c : Char) (l : List Char)
    (h : ¬ c = x) : expectLit (x :: cs) (c :: l) = none := by
  simp [expectLit, h]

theorem tailParse_digit_head (c : Char) (l : List Char) (h : isDigitC c = true) :
    tailParse (c :: l) = none := by
  unfold tailParse
  simp only [speakerLit]
  rw [expectLit_head_ne 'S' _ c l (digit_ne c 'S' h (by rfl))]

theorem tailParse_digits_append (d l : List Char) (hne : d ≠ [])
    (hd : ∀ c ∈ d, isDigitC c = true) : tailParse (d ++ l) = none := by
  obtain ⟨c, d', rfl⟩ := List.exists_cons_of_ne_nil hne
  rw [List.cons_append]
  exact tailParse_digit_head c _ (hd c (List.mem_cons_self _ _))

theorem takeDigits_showTenths (t : Nat) (c : Char) (r : List Char) :
    takeDigits (showTenths t ++ c :: r)
      = (toDec (t / 10), '.' :: digitChar (t % 10) :: c :: r) := by
  have hshape : showTenths t ++ c :: r
      = toDec (t / 10) ++ '.' :: (digitChar (t % 10) :: c :: r) := by
    simp [showTenths, List.append_assoc]
  rw [hshape]
  exact takeDigits_append _ '.' _ (toDec_digits (t / 10)) (by rfl)

theorem takeDigits_fracDigit (t : Nat) (c : Char) (r : List Char)
    (hc : isDigitC c = false) :
    takeDigits (digitChar (t % 10) :: c :: r) = ([digitChar (t % 10)], c :: r) :=
  takeDigits_append [digitChar (t % 10)] c r
    (by
      intro u hu
      rw [List.mem_singleton] at hu
      rw [hu]
      exact isDigitC_digitChar _)
    hc

theorem tailParse_tailForm (digits : List Char) (idx s10 e10 : Nat)
    (h3 : digits ≠ []) (h4 : ∀ c ∈ digits, isDigitC c = true) :
    tailParse (tailForm digits idx s10 e10)
      = some ⟨speakerLit ++ digits, idx, (s10 : ℚ) / 10, (e10 : ℚ) / 10⟩ := by
  have hrw : tailForm digits idx s10 e10
      = speakerLit ++ (digits ++ '_' :: (pad3 idx ++ '_' :: (showTenths s10 ++ 's' :: '-' ::
          (showTenths e10 ++ 's' :: '.' :: 'w' :: 'a' :: 'v' :: [])))) := rfl
  have t1 := takeDigits_append digits '_'
    (pad3 idx ++ '_' :: (showTenths s10 ++ 's' :: '-' ::
      (showTenths e10 ++ 's' :: '.' :: 'w' :: 'a' :: 'v' :: []))) h4 (by rfl)
  have t2 := takeDigits_append (pad3 idx) '_'
    (showTenths s10 ++ 's' :: '-' :: (showTenths e10 ++ 's' :: '.' :: 'w' :: 'a' :: 'v' :: []))
    (pad3_digits idx) (by rfl)
  have t3 := takeDigits_showTenths s10 's'
    ('-' :: (showTenths e10 ++ 's' :: '.' :: 'w' :: 'a' :: 'v' :: []))
  have t4 := takeDigits_fracDigit s10 's'
    ('-' :: (showTenths e10 ++ 's' :: '.' :: 'w' :: 'a' :: 'v' :: [])) (by rfl)
  have t5 := takeDigits_showTenths e10 's' ('.' :: 'w' :: 'a' :: 'v' :: [])
  have t6 := takeDigits_fracDigit e10 's' ('.' :: 'w' :: 'a' :: 'v' :: []) (by rfl)
  have hs1 : ¬ ([digitChar (s10 % 10)] : List Char) = [] := by simp
  have hs2 : ¬ ([digitChar (e10 % 10)] : List Char) = [] := by simp
  unfold tailParse
  rw [hrw, expectLit_append]
  simp only [t1, t2, t3, t4, t5, t6, if_neg h3, if_neg (pad3_ne_nil idx),
    if_neg (toDec_ne_nil (s10 / 10)), if_neg (toDec_ne_nil (e10 / 10)),
    if_neg hs1, if_neg hs2, ofDigits0_pad3, qVal_tenths]

theorem goP_cons_ne (c : Char) (l : List Char) (hne : ¬ c = '_') (h : goP l = none) :
    goP (c :: l) = none := by
  simp only [goP, if_neg hne]
  by_cases hn : c = '\n'
  · rw [if_pos hn]
  · rw [if_neg hn, h]

theorem goP_cons_underscore (l : List Char) (h1 : goP l = none) (h2 : tailParse l = none) :
    goP ('_' :: l) = none := by
  simp only [goP]
  rw [if_pos trivial, h1, h2]

theorem goP_digits_append (d l : List Char) (hd : ∀ c ∈ d, isDigitC c = true)
    (h : goP l = none) : goP (d ++ l) = none := by
  induction d with
  | nil => exact h
  | cons c d ih =>
    rw [List.cons_append]
    exact goP_cons_ne c _
      (digit_ne c '_' (hd c (List.mem_cons_self _ _)) (by rfl))
      (ih (fun u hu => hd u (List.mem_cons_of_mem c hu)))

theorem goP_tailForm_none (digits : List Char) (idx s10 e10 : Nat)
    (h3 : digits ≠ []) (h4 : ∀ c ∈ digits, isDigitC c = true) :
    goP (tailForm digits idx s10 e10) = none := by
  have hshape4 : showTenths e10 ++ 's' :: '.' :: 'w' :: 'a' :: 'v' :: []
      = toDec (e10 / 10) ++ '.' :: digitChar (e10 % 10)
          :: 's' :: '.' :: 'w' :: 'a' :: 'v' :: [] := by
    simp [showTenths, List.append_assoc]
  have hshape3 : showTenths s10 ++ 's' :: '-' ::
        (showTenths e10 ++ 's' :: '.' :: 'w' :: 'a' :: 'v' :: [])
      = toDec (s10 / 10) ++ '.' :: digitChar (s10 % 10) :: 's' :: '-' ::
          (showTenths e10 ++ 's' :: '.' :: 'w' :: 'a' :: 'v' :: []) := by
    simp [showTenths, List.append_assoc]
  have hrest4 : goP (showTenths e10 ++ 's' :: '.' :: 'w' :: 'a' :: 'v' :: []) = none := by
    rw [hshape4]
    apply goP_digits_append _ _ (toDec_digits (e10 / 10))
    apply goP_cons_ne '.' _ (by decide)
    apply goP_cons_ne (digitChar (e10 % 10)) _
      (digit_ne _ '_' (isDigitC_digitChar _) (by rfl))
    rfl
  have hrest3 : goP (showTenths s10 ++ 's' :: '-' ::
      (showTenths e10 ++ 's' :: '.' :: 'w' :: 'a' :: 'v' :: [])) = none := by
    rw [hshape3]
    apply goP_digits_append _ _ (toDec_digits (s10 / 10))
    apply goP_cons_ne '.' _ (by decide)
    apply goP_cons_ne (digitChar (s10 % 10)) _
      (digit_ne _ '_' (isDigitC_digitChar _) (by rfl))
    apply goP_cons_ne 's' _ (by decide)
    apply goP_cons_ne '-' _ (by decide)
    exact hrest4
  have htp3 : tailParse (showTenths s10 ++ 's' :: '-' ::
      (showTenths e10 ++ 's' :: '.' :: 'w' :: 'a' :: 'v' :: [])) = none := by
    rw [hshape3]
    exact tailParse_digits_append _ _ (toDec_ne_nil _) (toDec_digits _)
  have hrest2 : goP (pad3 idx ++ '_' :: (showTenths s10 ++ 's' :: '-' ::
      (showTenths e10 ++ 's' :: '.' :: 'w' :: 'a' :: 'v' :: []))) = none := by
    apply goP_digits_append _ _ (pad3_digits idx)
    exact goP_cons_underscore _ hrest3 htp3
  have htp2 : tailParse (pad3 idx ++ '_' :: (showTenths s10 ++ 's' :: '-' ::
      (showTenths e10 ++ 's' :: '.' :: 'w' :: 'a' :: 'v' :: []))) = none :=
    tailParse_digits_append _ _ (pad3_ne_nil idx) (pad3_digits idx)
  have hrest1 : goP (digits ++ '_' :: (pad3 idx ++ '_' :: (showTenths s10 ++ 's' :: '-' ::
      (showTenths e10 ++ 's' :: '.' :: 'w' :: 'a' :: 'v' :: [])))) = none := by
    apply goP_digits_append _ _ h4
    exact goP_cons_underscore _ hrest2 htp2
  have htp1 : tailParse (digits ++ '_' :: (pad3 idx ++ '_' :: (showTenths s10 ++ 's' :: '-' ::
      (showTenths e10 ++ 's' :: '.' :: 'w' :: 'a' :: 'v' :: [])))) = none :=
    tailParse_digits_append _ _ h3 h4
  show goP ('S' :: 'P' :: 'E' :: 'A' :: 'K' :: 'E' :: 'R' :: '_' :: _) = none
  apply goP_cons_ne 'S' _ (by decide)
  apply goP_cons_ne 'P' _ (by decide)
  apply goP_cons_ne 'E' _ (by decide)
  apply goP_cons_ne 'A' _ (by decide)
  apply goP_cons_ne 'K' _ (by decide)
  apply goP_cons_ne 'E' _ (by decide)
  apply goP_cons_ne 'R' _ (by decide)
  exact goP_cons_underscore _ hrest1 htp1

theorem goP_genuine (x tail : List Char) (g : TailGroups)
    (hx : ∀ c ∈ x, ¬ c = '\n') (h1 : goP tail = none) (h2 : tailParse tail = some g) :
    goP (x ++ '_' :: tail) = some (x, g) := by
  induction x with
  | nil =>
    rw [List.nil_append]
    simp only [goP]
    rw [if_pos trivial, h1, h2]
  | cons c x ih =>
    have hcn : ¬ c = '\n' := hx c (List.mem_cons_self _ _)
    have ih' := ih (fun u hu => hx u (List.mem_cons_of_mem _ hu))
    rw [List.cons_append]
    by_cases hc : c = '_'
    · subst hc
      simp only [goP]
      rw [if_pos trivial, ih']
    · simp only [goP]
      rw [if_neg hc, if_neg hcn, ih']

/-- C1 counterexample: the diarization speaker label is an arbitrary
string at the external interface, but the transcript regex only accepts
`SPEAKER_<digits>`; with speaker label `"A"` the formatted filename
`a_A_000_1.0s-3.0s.wav` does not parse back at all. -/
theorem address_roundtrip_cex :
    parseFilename (formatAddress "a".data "A".data 0 10 30) = none := by
  decide

/-- C1 (amended).  For every session identifier (nonempty, containing no
newline) and every speaker label of the pyannote shape
`SPEAKER_<digits>`, with any sequence index and start/end times given in
tenths of a second (the precision the one-decimal format keeps),
formatting the segment address and parsing it back with the transcript
regex succeeds and returns exactly the session id, label, index, and the
two times. -/
theorem address_roundtrip (sid digits : List Char) (idx s10 e10 : Nat)
    (h1 : sid ≠ []) (h2 : '\n' ∉ sid) (h3 : digits ≠ [])
    (h4 : ∀ c ∈ digits, isDigitC c = true) :
    parseFilename (formatAddress sid (speakerLit ++ digits) idx s10 e10)
      = some (sid, ⟨speakerLit ++ digits, idx, (s10 : ℚ) / 10, (e10 : ℚ) / 10⟩) := by
  obtain ⟨c, sid', rfl⟩ := List.exists_cons_of_ne_nil h1
  have hdec : formatAddress (c :: sid') (speakerLit ++ digits) idx s10 e10
      = c :: (sid' ++ '_' :: tailForm digits idx s10 e10) := by
    simp [formatAddress, tailForm, speakerLit, List.append_assoc]
  have hcn : ¬ c = '\n' := by
    intro he
    apply h2
    rw [← he]
    exact List.mem_cons_self _ _
  have hgo := goP_genuine sid' (tailForm digits idx s10 e10)
    ⟨speakerLit ++ digits, idx, (s10 : ℚ) / 10, (e10 : ℚ) / 10⟩
    (fun u hu he => h2 (by rw [← he]; exact List.mem_cons_of_mem c hu))
    (goP_tailForm_none digits idx s10 e10 h3 h4)
    (tailParse_tailForm digits idx s10 e10 h3 h4)
  rw [hdec]
  simp only [parseFilename]
  rw [if_neg hcn, hgo]

/-- C1 witness: a concrete address round-trips through format and parse. -/
theorem address_roundtrip_witness :
    parseFilename (formatAddress "rec1".data (speakerLit ++ "07".data) 5 23 71)
      = some ("rec1".data,
          ⟨speakerLit ++ "07".data, 5, ((23 : Nat) : ℚ) / 10, ((71 : Nat) : ℚ) / 10⟩) :=
  address_roundtrip "rec1".data "07".data 5 23 71
    (by decide) (by decide) (by decide) (by decide)

end SpeakerSep
